import Mathlib

/-!
Formal model of the client-side search engine implemented in `js/search.js`.

JavaScript strings are modelled as lists of characters (`Str`); the string
operations used by the engine (`toLowerCase`, `includes`, `indexOf`,
`substring`, `trim`) become functions on `Str`.  Each definition mirrors one
function or code path of `SearchEngine` in `js/search.js`.
-/

namespace SearchSpec

/-- JavaScript strings, modelled as lists of characters. -/
abbrev Str := List Char

/-- Model of `s.toLowerCase()`: characterwise lowering. -/
def lowerStr (s : Str) : Str := s.map Char.toLower

/-- Model of `hay.includes(needle)`: substring containment. -/
def includesSub (hay needle : Str) : Bool := decide (needle <:+: hay)

/-- Model of `hay.indexOf(needle)`: index of the first occurrence of
`needle` in `hay`, or `none` where JavaScript returns `-1`. -/
def indexOfSub (needle : Str) : Str → Option Nat
  | [] => if needle <+: ([] : Str) then some 0 else none
  | c :: t =>
    if needle <+: (c :: t) then some 0
    else (indexOfSub needle t).map (· + 1)

/-- A normalized document of the search index, as produced by
`processSearchData`: title, url, plain-text content, tag names and
category names. -/
structure Document where
  title : Str
  url : Str
  content : Str
  tags : List Str
  categories : List Str
deriving DecidableEq

/-- One element of the `results` array built by `SearchEngine.search`:
the document together with its relevance `score` and the `matchedIn`
flags. -/
structure ScoredResult where
  doc : Document
  score : Nat
  titleMatch : Bool
  contentMatch : Bool
  tagMatch : Bool
  categoryMatch : Bool
deriving DecidableEq

/-- One iteration of the `for` loop of `SearchEngine.search`: compute the
four case-insensitive match flags for `post`, and when at least one holds
push a scored result (title 10, tag 5, category 3, content 1). The
argument `keywordLower` is the already-lowered keyword, as in the source. -/
def searchStep (keywordLower : Str) (post : Document) : Option ScoredResult :=
  let titleMatch := includesSub (lowerStr post.title) keywordLower
  let contentMatch := includesSub (lowerStr post.content) keywordLower
  let tagMatch := post.tags.any fun tag => includesSub (lowerStr tag) keywordLower
  let categoryMatch := post.categories.any fun cat => includesSub (lowerStr cat) keywordLower
  if titleMatch || contentMatch || tagMatch || categoryMatch then
    some { doc := post
           score := (if titleMatch then 10 else 0) + (if tagMatch then 5 else 0) +
             (if categoryMatch then 3 else 0) + (if contentMatch then 1 else 0)
           titleMatch := titleMatch
           contentMatch := contentMatch
           tagMatch := tagMatch
           categoryMatch := categoryMatch }
  else
    none

/-- The `results` array of `SearchEngine.search` before sorting, in
collection order. -/
def unsortedResults (data : List Document) (keyword : Str) : List ScoredResult :=
  data.filterMap (searchStep (lowerStr keyword))

/-- The comparator `(a, b) => b.score - a.score`: `a` may come before `b`
exactly when `a.score ≥ b.score`. -/
def scoreGe (a b : ScoredResult) : Prop := b.score ≤ a.score

instance : DecidableRel scoreGe := fun a b =>
  inferInstanceAs (Decidable (b.score ≤ a.score))

/-- Model of `SearchEngine.search`: scan the collection in order, then
`results.sort((a, b) => b.score - a.score)`.  `Array.prototype.sort` is
stable and the comparator is a total preorder on the score, so the result
is the unique stable descending-by-score reordering; it is modelled by
the stable `insertionSort` with relation `scoreGe`. -/
def search (data : List Document) (keyword : Str) : List ScoredResult :=
  List.insertionSort scoreGe (unsortedResults data keyword)

/-- The match condition of the spec: the keyword, compared
case-insensitively, is a substring of the title, of the content, or of
some tag or category. -/
def ciMatches (keyword : Str) (d : Document) : Prop :=
  lowerStr keyword <:+: lowerStr d.title ∨
  lowerStr keyword <:+: lowerStr d.content ∨
  (∃ t ∈ d.tags, lowerStr keyword <:+: lowerStr t) ∨
  (∃ c ∈ d.categories, lowerStr keyword <:+: lowerStr c)

theorem includesSub_eq_true {hay needle : Str} :
    includesSub hay needle = true ↔ needle <:+: hay := by
  simp [includesSub]

theorem searchStep_doc {k : Str} {d : Document} {r : ScoredResult}
    (h : searchStep k d = some r) : r.doc = d := by
  simp only [searchStep] at h
  split at h
  · cases Option.some.inj h
    rfl
  · exact Option.noConfusion h

theorem searchCond_iff {kw : Str} {d : Document} :
    (includesSub (lowerStr d.title) (lowerStr kw) ||
        includesSub (lowerStr d.content) (lowerStr kw) ||
        d.tags.any (fun tag => includesSub (lowerStr tag) (lowerStr kw)) ||
        d.categories.any (fun cat => includesSub (lowerStr cat) (lowerStr kw))) = true ↔
      ciMatches kw d := by
  simp [ciMatches, includesSub_eq_true, or_assoc]

theorem searchStep_isSome_iff {kw : Str} {d : Document} :
    (searchStep (lowerStr kw) d).isSome ↔ ciMatches kw d := by
  simp only [searchStep]
  split
  · rename_i hcond
    simp only [Option.isSome_some, true_iff]
    exact searchCond_iff.mp hcond
  · rename_i hcond
    simp only [Option.isSome_none, Bool.false_eq_true, false_iff]
    exact fun hm => hcond (searchCond_iff.mpr hm)

theorem mem_unsortedResults {data : List Document} {kw : Str} {d : Document} :
    (∃ r ∈ unsortedResults data kw, r.doc = d) ↔ d ∈ data ∧ ciMatches kw d := by
  constructor
  · rintro ⟨r, hr, rfl⟩
    rw [unsortedResults, List.mem_filterMap] at hr
    obtain ⟨p, hp, hstep⟩ := hr
    have hdoc := searchStep_doc hstep
    rw [hdoc]
    refine ⟨hp, searchStep_isSome_iff.mp ?_⟩
    rw [hstep]
    rfl
  · rintro ⟨hd, hm⟩
    have h1 : (searchStep (lowerStr kw) d).isSome = true := searchStep_isSome_iff.mpr hm
    obtain ⟨r, hr⟩ := Option.isSome_iff_exists.mp h1
    exact ⟨r, List.mem_filterMap.mpr ⟨d, hd, hr⟩, searchStep_doc hr⟩

/-- **C1.** For every document `d` in the loaded collection and every
query of at least `minChars = 2` characters, `d` appears in the result of
`search` if and only if the query, compared case-insensitively, is a
substring of the title, of the content, or of some element of the tags or
categories. -/
theorem search_mem_iff_ciMatches (data : List Document) (keyword : Str)
    (hlen : 2 ≤ keyword.length) (d : Document) :
    (∃ r ∈ search data keyword, r.doc = d) ↔ d ∈ data ∧ ciMatches keyword d := by
  unfold search
  constructor
  · rintro ⟨r, hr, rfl⟩
    exact mem_unsortedResults.mp ⟨r, (List.mem_insertionSort scoreGe).mp hr, rfl⟩
  · intro h
    obtain ⟨r, hr, hdoc⟩ := mem_unsortedResults.mpr h
    exact ⟨r, (List.mem_insertionSort scoreGe).mpr hr, hdoc⟩

/-- Sample document used by concrete witnesses. -/
def sampleDoc : Document :=
  { title := "Rust Guide".data, url := "/rust".data, content := "about systems".data,
    tags := ["systems".data], categories := [] }

/-- Witness for C1 at a concrete collection and query. -/
theorem search_mem_iff_ciMatches_witness :
    2 ≤ ("rust".data : Str).length ∧
      ((∃ r ∈ search [sampleDoc] "rust".data, r.doc = sampleDoc) ↔
        sampleDoc ∈ [sampleDoc] ∧ ciMatches "rust".data sampleDoc) :=
  ⟨by decide, search_mem_iff_ciMatches _ _ (by decide) _⟩

theorem searchStep_score {k : Str} {d : Document} {r : ScoredResult}
    (h : searchStep k d = some r) :
    r.score = (if r.titleMatch then 10 else 0) + (if r.tagMatch then 5 else 0) +
      (if r.categoryMatch then 3 else 0) + (if r.contentMatch then 1 else 0) := by
  simp only [searchStep] at h
  split at h
  · cases Option.some.inj h
    rfl
  · exact Option.noConfusion h

theorem mem_search_score {data : List Document} {kw : Str} {r : ScoredResult}
    (hr : r ∈ search data kw) :
    r.score = (if r.titleMatch then 10 else 0) + (if r.tagMatch then 5 else 0) +
      (if r.categoryMatch then 3 else 0) + (if r.contentMatch then 1 else 0) := by
  simp only [search, unsortedResults] at hr
  obtain ⟨p, hp, hstep⟩ := List.mem_filterMap.mp ((List.mem_insertionSort scoreGe).mp hr)
  exact searchStep_score hstep

/-- **C2.** Every returned result's score is the additive sum of the four
field weights (title 10, tag 5, category 3, content 1) over its match
flags; consequently a result matching title and content scores strictly
higher than one matching content alone. -/
theorem search_score_additive (data : List Document) (keyword : Str) (r : ScoredResult)
    (hr : r ∈ search data keyword) :
    r.score = (if r.titleMatch then 10 else 0) + (if r.tagMatch then 5 else 0) +
        (if r.categoryMatch then 3 else 0) + (if r.contentMatch then 1 else 0) ∧
      ∀ r₂ ∈ search data keyword, r.titleMatch = true → r.contentMatch = true →
        r₂.titleMatch = false → r₂.tagMatch = false → r₂.categoryMatch = false →
        r₂.contentMatch = true → r₂.score < r.score := by
  refine ⟨mem_search_score hr, ?_⟩
  intro r₂ hr₂ ht hc h₂t h₂tg h₂cat h₂c
  have e₁ := mem_search_score hr
  have e₂ := mem_search_score hr₂
  rw [ht, hc] at e₁
  rw [h₂t, h₂tg, h₂cat, h₂c] at e₂
  simp only [if_true, if_false] at e₁ e₂
  rcases htg : r.tagMatch <;> rcases hcat : r.categoryMatch <;>
    rw [htg, hcat] at e₁ <;> simp at e₁ e₂ <;> omega

/-- Documents used by the C2 witness: one matching the query in title and
content, one matching in content alone. -/
def docTitleContent : Document :=
  { title := "Rust Guide".data, url := [], content := "all about rust".data,
    tags := [], categories := [] }

def docContentOnly : Document :=
  { title := "Go Tutorial".data, url := [], content := "rust mentioned".data,
    tags := [], categories := [] }

def resultTitleContent : ScoredResult :=
  { doc := docTitleContent, score := 11, titleMatch := true, contentMatch := true,
    tagMatch := false, categoryMatch := false }

def resultContentOnly : ScoredResult :=
  { doc := docContentOnly, score := 1, titleMatch := false, contentMatch := true,
    tagMatch := false, categoryMatch := false }

/-- Witness for C2 at a concrete two-document collection. -/
theorem search_score_additive_witness :
    (resultTitleContent.score =
        (if resultTitleContent.titleMatch then 10 else 0) +
          (if resultTitleContent.tagMatch then 5 else 0) +
          (if resultTitleContent.categoryMatch then 3 else 0) +
          (if resultTitleContent.contentMatch then 1 else 0)) ∧
      resultContentOnly.score < resultTitleContent.score := by
  have h := search_score_additive [docTitleContent, docContentOnly] "rust".data
    resultTitleContent (by decide)
  exact ⟨h.1, h.2 resultContentOnly (by decide) rfl rfl rfl rfl rfl rfl⟩

instance : IsTotal ScoredResult scoreGe :=
  ⟨fun a b => Nat.le_total b.score a.score⟩

instance : IsTrans ScoredResult scoreGe :=
  ⟨fun _ _ _ hab hbc => le_trans hbc hab⟩

/-- **C3.** The search result is sorted in descending order of score, and
it is a stable sort of the scored results taken in collection order: for
every score value, the results carrying that score appear in exactly the
order in which they occur in the (collection-ordered) unsorted pass. -/
theorem search_sorted_and_stable (data : List Document) (keyword : Str) :
    (search data keyword).Pairwise scoreGe ∧
      ∀ s : Nat, (search data keyword).filter (fun r => r.score == s) =
        (unsortedResults data keyword).filter (fun r => r.score == s) := by
  constructor
  · exact List.sorted_insertionSort scoreGe (unsortedResults data keyword)
  · intro s
    have hall : ∀ a ∈ (unsortedResults data keyword).filter (fun r => r.score == s),
        a.score = s := fun a ha => eq_of_beq ((List.mem_filter.mp ha).2)
    have hpair :
        ((unsortedResults data keyword).filter (fun r => r.score == s)).Pairwise scoreGe := by
      refine List.pairwise_of_forall_mem_list ?_
      intro a ha b hb
      simp only [scoreGe, hall a ha, hall b hb]
      exact le_rfl
    have hsub : List.Sublist ((unsortedResults data keyword).filter (fun r => r.score == s))
        (unsortedResults data keyword) :=
      List.filter_sublist _
    have hstable : List.Sublist ((unsortedResults data keyword).filter (fun r => r.score == s))
        (search data keyword) :=
      List.sublist_insertionSort hpair hsub
    have h1 : List.Sublist ((unsortedResults data keyword).filter (fun r => r.score == s))
        ((search data keyword).filter (fun r => r.score == s)) := by
      have h2 := List.Sublist.filter (fun r => r.score == s) hstable
      simpa only [List.filter_filter, Bool.and_self] using h2
    have hperm : List.Perm ((search data keyword).filter (fun r => r.score == s))
        ((unsortedResults data keyword).filter (fun r => r.score == s)) :=
      (List.perm_insertionSort scoreGe (unsortedResults data keyword)).filter _
    exact (List.Sublist.eq_of_length h1 hperm.length_eq.symm).symm

/-! ### Excerpt extraction (`SearchEngine.getExcerpt`) -/

/-- The truncation marker added by `getExcerpt`. -/
def dots : Str := "...".data

/-- Model of `SearchEngine.getExcerpt`.  The `maxLength` parameter
defaults to `150` in the source; callers here pass it explicitly.
`Math.max(0, index - 50)` is the truncated subtraction `index - 50` on
`Nat`. -/
def getExcerpt (content keyword : Str) (maxLength : Nat) : Str :=
  if content = [] then []
  else
    match indexOfSub (lowerStr keyword) (lowerStr content) with
    | none =>
      content.take maxLength ++ (if maxLength < content.length then dots else [])
    | some index =>
      let start := index - 50
      let stop := min content.length (index + keyword.length + 100)
      let excerpt := (content.drop start).take (stop - start)
      let excerpt := if 0 < start then dots ++ excerpt else excerpt
      if stop < content.length then excerpt ++ dots else excerpt

theorem indexOfSub_le_length {needle h : Str} {i : Nat}
    (hh : indexOfSub needle h = some i) : i ≤ h.length := by
  induction h generalizing i with
  | nil =>
    rw [indexOfSub] at hh
    split at hh
    · cases Option.some.inj hh
      exact Nat.le_refl 0
    · exact Option.noConfusion hh
  | cons c t ih =>
    rw [indexOfSub] at hh
    split at hh
    · cases Option.some.inj hh
      exact Nat.zero_le _
    · obtain ⟨j, hj, hji⟩ := Option.map_eq_some'.mp hh
      subst hji
      simpa using ih hj

theorem indexOfSub_some_prefix {needle h : Str} {i : Nat}
    (hh : indexOfSub needle h = some i) : needle <+: h.drop i := by
  induction h generalizing i with
  | nil =>
    rw [indexOfSub] at hh
    split at hh
    · cases Option.some.inj hh
      simpa using ‹needle <+: ([] : Str)›
    · exact Option.noConfusion hh
  | cons c t ih =>
    rw [indexOfSub] at hh
    split at hh
    · cases Option.some.inj hh
      simpa using ‹needle <+: (c :: t)›
    · obtain ⟨j, hj, hji⟩ := Option.map_eq_some'.mp hh
      subst hji
      simpa using ih hj

theorem indexOfSub_none {needle h : Str}
    (hh : indexOfSub needle h = none) : ¬ needle <:+: h := by
  induction h with
  | nil =>
    rw [indexOfSub] at hh
    split at hh
    · exact Option.noConfusion hh
    · intro hinf
      exact ‹¬ needle <+: ([] : Str)› (List.infix_nil.mp hinf ▸ List.nil_prefix)
  | cons c t ih =>
    rw [indexOfSub] at hh
    split at hh
    · exact Option.noConfusion hh
    · intro hinf
      rcases List.infix_cons_iff.mp hinf with hpre | hinf'
      · exact ‹¬ needle <+: (c :: t)› hpre
      · exact ih (by simpa using hh) hinf'

/-- The excerpt window without its truncation markers: the part of
`getExcerpt`'s return value that is copied out of `content`. -/
def excerptCore (content keyword : Str) (maxLength : Nat) : Str :=
  if content = [] then []
  else
    match indexOfSub (lowerStr keyword) (lowerStr content) with
    | none => content.take maxLength
    | some index =>
      (content.drop (index - 50)).take
        (min content.length (index + keyword.length + 100) - (index - 50))

theorem take_drop_within (l : Str) (a b : Nat) : (l.drop a).take b <:+: l :=
  ⟨l.take a, (l.drop a).drop b, by
    rw [List.append_assoc, List.take_append_drop, List.take_append_drop]⟩

theorem prefix_trans_suffix {p s l : Str} (h1 : p <+: s) (h2 : s <:+ l) : p <:+: l := by
  obtain ⟨v, hv⟩ := h1
  obtain ⟨u, hu⟩ := h2
  exact ⟨u, v, by rw [List.append_assoc, hv]; exact hu⟩

/-- **C5 (amended).** For every content string and query, `getExcerpt`
returns the window `excerptCore` — a contiguous substring of the content
— possibly surrounded by truncation markers; and whenever the query
occurs case-insensitively in the content, the window contains a substring
equal to the query up to case (the occurrence around which the window was
placed).  The original claim's "contains q verbatim" is corrected to
"contains q up to case": the window is placed around the first
case-insensitive occurrence, which need not have the query's exact
casing. -/
theorem getExcerpt_substring_and_contains (content keyword : Str) :
    excerptCore content keyword 150 <:+: content ∧
      (getExcerpt content keyword 150 = excerptCore content keyword 150 ∨
        getExcerpt content keyword 150 = dots ++ excerptCore content keyword 150 ∨
        getExcerpt content keyword 150 = excerptCore content keyword 150 ++ dots ∨
        getExcerpt content keyword 150 = dots ++ excerptCore content keyword 150 ++ dots) ∧
      (lowerStr keyword <:+: lowerStr content →
        ∃ m : Str, m <:+: excerptCore content keyword 150 ∧
          lowerStr m = lowerStr keyword) := by
  by_cases hc : content = []
  · subst hc
    refine ⟨by simp [excerptCore], Or.inl (by simp [getExcerpt, excerptCore]), ?_⟩
    intro hocc
    simp only [lowerStr, List.map_nil, List.infix_nil] at hocc
    exact ⟨[], by simp [excerptCore], by simp [lowerStr, hocc]⟩
  · rw [getExcerpt, excerptCore, if_neg hc, if_neg hc]
    rcases heq : indexOfSub (lowerStr keyword) (lowerStr content) with _ | i <;>
      simp only [heq]
    · refine ⟨⟨[], content.drop 150, by simp⟩, ?_, ?_⟩
      · split
        · exact Or.inr (Or.inr (Or.inl rfl))
        · exact Or.inl (by simp)
      · intro hocc
        exact absurd hocc (indexOfSub_none heq)
    · have hpre : lowerStr keyword <+: (lowerStr content).drop i :=
        indexOfSub_some_prefix heq
      have hilen : i ≤ content.length := by
        have h0 := indexOfSub_le_length heq
        simp only [lowerStr, List.length_map] at h0
        exact h0
      have hkwlen : i + keyword.length ≤ content.length := by
        have h1 := List.IsPrefix.length_le hpre
        simp only [lowerStr, List.length_map, List.length_drop] at h1
        omega
      refine ⟨take_drop_within content (i - 50) _, ?_, ?_⟩
      · split <;> split <;> simp
      · intro _
        refine ⟨(content.drop i).take keyword.length, ?_, ?_⟩
        · have hE : ((content.drop (i - 50)).take
                (min content.length (i + keyword.length + 100) - (i - 50))).drop (i - (i - 50)) =
              (content.drop i).take (min content.length (i + keyword.length + 100) - i) := by
            rw [List.drop_take, List.drop_drop]
            have e1 : i - 50 + (i - (i - 50)) = i := by omega
            have e2 : min content.length (i + keyword.length + 100) - (i - 50) - (i - (i - 50)) =
                min content.length (i + keyword.length + 100) - i := by omega
            rw [e1, e2]
          have hstep : (content.drop i).take keyword.length <+:
              (content.drop i).take (min content.length (i + keyword.length + 100) - i) :=
            List.take_prefix_take_left _ (by omega)
          rw [← hE] at hstep
          exact prefix_trans_suffix hstep (List.drop_suffix _ _)
        · have htake := List.prefix_iff_eq_take.mp hpre
          simp only [lowerStr, List.length_map, List.map_take, List.map_drop] at htake ⊢
          exact htake.symm

/-- Witness for the conditional clause of C5 at a concrete input. -/
theorem getExcerpt_substring_and_contains_witness :
    ∃ m : Str, m <:+: excerptCore "all about Rust here".data "rust".data 150 ∧
      lowerStr m = lowerStr "rust".data :=
  (getExcerpt_substring_and_contains "all about Rust here".data "rust".data).2.2 (by decide)

/-- Concrete input refuting C5 as stated: the query occurs verbatim in
the content, but only beyond the excerpt window; the window is placed
around an earlier case-variant occurrence, so the returned excerpt does
not contain the query verbatim. -/
def longContent : Str := "RUST".data ++ List.replicate 101 'x' ++ "rust".data

set_option maxRecDepth 20000 in
/-- **C5 counterexample.** `"rust"` occurs (verbatim) in `longContent`,
yet the excerpt returned for query `"rust"` does not contain `"rust"`
verbatim: the window covers only the leading case-variant `"RUST"`. -/
theorem getExcerpt_verbatim_counterexample :
    ("rust".data : Str) <:+: longContent ∧
      ¬ ("rust".data : Str) <:+: getExcerpt longContent "rust".data 150 := by
  constructor
  · exact ⟨"RUST".data ++ List.replicate 101 'x', [], by simp [longContent]⟩
  · decide

/-! ### Keyword highlighting (`SearchEngine.highlight`)

The source builds `new RegExp(escapedKeyword, 'gi')` and calls
`text.replace(regex, '<mark ...>$1</mark>')`.  The escaping step turns
every regex metacharacter into a `\`-escape, so the compiled pattern is a
sequence of single-character items; those are modelled by `RItem`, and
global replacement by the leftmost non-overlapping scan `hlScan`. -/

/-- The character class `[.*+?^${}()|[\]\\]` escaped by `highlight`
(`Char.ofNat 123` and `Char.ofNat 125` are the curly braces). -/
def isRegexMeta (c : Char) : Bool :=
  c == '.' || c == '*' || c == '+' || c == '?' || c == '^' || c == '$' ||
  c == Char.ofNat 123 || c == Char.ofNat 125 || c == '(' || c == ')' ||
  c == '|' || c == '[' || c == ']' || c == '\\'

/-- Model of `keyword.replace(/[.*+?^${}()|[\]\\]/g, '\\$&')`. -/
def escapeRegex : Str → Str
  | [] => []
  | c :: rest =>
    if isRegexMeta c then '\\' :: c :: escapeRegex rest
    else c :: escapeRegex rest

/-- One item of the compiled pattern: a literal character or the `.`
wildcard.  Patterns built by `highlight` consist of literals only (every
metacharacter is escaped); `dot` keeps the model faithful for unescaped
sources, where `.` matches any character but a line terminator. -/
inductive RItem
  | lit (c : Char)
  | dot
deriving DecidableEq

/-- JavaScript line terminators, which `.` does not match. -/
def isLineTerminator (c : Char) : Bool :=
  c == '\n' || c == '\r' || c == Char.ofNat 0x2028 || c == Char.ofNat 0x2029

mutual

/-- Parse a regex source consisting of literal characters, `\`-escapes
and `.` — the fragment `highlight` can produce — into pattern items. -/
def parsePattern : Str → List RItem
  | [] => []
  | c :: rest =>
    if c = '\\' then parseEscape rest
    else if c = '.' then RItem.dot :: parsePattern rest
    else RItem.lit c :: parsePattern rest

/-- Parse the character following a `\` escape as a literal item. -/
def parseEscape : Str → List RItem
  | [] => []
  | d :: rest => RItem.lit d :: parsePattern rest

end

/-- Case-insensitive match (`i` flag) of one pattern item. -/
def itemMatches : RItem → Char → Bool
  | RItem.lit a, c => a.toLower == c.toLower
  | RItem.dot, c => !(isLineTerminator c)

/-- Match a pattern at the head of `s`; on success return the consumed
characters (in their original case, as captured by `$1`) and the rest. -/
def matchItems : List RItem → Str → Option (Str × Str)
  | [], s => some ([], s)
  | _ :: _, [] => none
  | it :: its, c :: rest =>
    if itemMatches it c then
      (matchItems its rest).map fun q => (c :: q.1, q.2)
    else none

theorem matchItems_eq {p : List RItem} {s m r : Str}
    (h : matchItems p s = some (m, r)) : s = m ++ r ∧ m.length = p.length := by
  induction p generalizing s m r with
  | nil =>
    rw [matchItems] at h
    obtain ⟨h1, h2⟩ := Prod.mk.injEq .. ▸ Option.some.inj h
    exact ⟨h1 ▸ h2 ▸ rfl, h1 ▸ rfl⟩
  | cons it its ih =>
    cases s with
    | nil => exact Option.noConfusion h
    | cons c rest =>
      rw [matchItems] at h
      split at h
      · obtain ⟨⟨m1, r1⟩, hq, hqe⟩ := Option.map_eq_some'.mp h
        obtain ⟨he, hl⟩ := ih hq
        obtain ⟨h1, h2⟩ := Prod.mk.injEq .. ▸ hqe
        subst h1 h2
        constructor
        · rw [he]
          rfl
        · simp [hl]
      · exact Option.noConfusion h

/-- The global (`g` flag) replacement scan: at each position try the
pattern; on a match emit a marked segment and continue after it, else
emit the current character unmarked and advance by one. -/
def hlScan (it : RItem) (its : List RItem) : Str → List (Bool × Str)
  | [] => []
  | c :: rest =>
    match hm : matchItems (it :: its) (c :: rest) with
    | some (m, r) => (true, m) :: hlScan it its r
    | none => (false, [c]) :: hlScan it its rest
termination_by s => s.length
decreasing_by
  · obtain ⟨he, hl⟩ := matchItems_eq hm
    have h2 := congrArg List.length he
    simp only [List.length_cons, List.length_append] at h2 hl ⊢
    omega
  · simp only [List.length_cons]
    omega

/-- The opening highlight marker `<mark class="...">`. -/
def markOpen (cls : Str) : Str := "<mark class=\"".data ++ cls ++ "\">".data

/-- The closing highlight marker. -/
def markClose : Str := "</mark>".data

def renderSeg (cls : Str) : Bool × Str → Str
  | (true, s) => markOpen cls ++ s ++ markClose
  | (false, s) => s

def renderSegs (cls : Str) (segs : List (Bool × Str)) : Str :=
  (segs.map (renderSeg cls)).flatten

/-- Concatenation of the raw characters of a segment list. -/
def joinSegs (segs : List (Bool × Str)) : Str := (segs.map Prod.snd).flatten

/-- Model of `SearchEngine.highlight`: empty text or keyword are
returned unchanged (`!text || !keyword`); otherwise the escaped keyword
is compiled and every match of the global case-insensitive scan is
wrapped in the highlight marker. -/
def highlight (cls text keyword : Str) : Str :=
  if text = [] ∨ keyword = [] then text
  else
    match parsePattern (escapeRegex keyword) with
    | [] => text
    | it :: its => renderSegs cls (hlScan it its text)

/-- The marked/unmarked decomposition underlying `highlight`. -/
def highlightSegs (text keyword : Str) : List (Bool × Str) :=
  match parsePattern (escapeRegex keyword) with
  | [] => [(false, text)]
  | it :: its => hlScan it its text

theorem parsePattern_escape (kw : Str) :
    parsePattern (escapeRegex kw) = kw.map RItem.lit := by
  induction kw with
  | nil => rfl
  | cons c rest ih =>
    by_cases hm : isRegexMeta c = true
    · rw [escapeRegex, if_pos hm, parsePattern, if_pos rfl, parseEscape, ih, List.map_cons]
    · have h1 : c ≠ '\\' := fun h => hm (by rw [h]; decide)
      have h2 : c ≠ '.' := fun h => hm (by rw [h]; decide)
      rw [escapeRegex, if_neg hm, parsePattern, if_neg h1, if_neg h2, ih, List.map_cons]

theorem matchItems_lit_some {kw s m r : Str}
    (h : matchItems (kw.map RItem.lit) s = some (m, r)) :
    lowerStr m = lowerStr kw := by
  induction kw generalizing s m r with
  | nil =>
    rw [List.map_nil, matchItems] at h
    obtain ⟨h1, _⟩ := Prod.mk.injEq .. ▸ Option.some.inj h
    rw [← h1]
  | cons k ks ih =>
    cases s with
    | nil => exact Option.noConfusion h
    | cons c rest =>
      rw [List.map_cons, matchItems] at h
      split at h
      · rename_i hit
        obtain ⟨⟨m1, r1⟩, hq, hqe⟩ := Option.map_eq_some'.mp h
        obtain ⟨h1, _⟩ := Prod.mk.injEq .. ▸ hqe
        have hk : k.toLower = c.toLower := eq_of_beq hit
        rw [← h1]
        simp only [lowerStr, List.map_cons] at ih ⊢
        rw [ih hq, hk]
      · exact Option.noConfusion h

theorem matchItems_lit_none {kw s : Str}
    (h : matchItems (kw.map RItem.lit) s = none) :
    ¬ lowerStr kw <+: lowerStr s := by
  induction kw generalizing s with
  | nil =>
    rw [List.map_nil, matchItems] at h
    exact Option.noConfusion h
  | cons k ks ih =>
    cases s with
    | nil =>
      intro hp
      simp only [lowerStr, List.map_cons, List.map_nil, List.prefix_nil] at hp
      exact List.cons_ne_nil _ _ hp
    | cons c rest =>
      rw [List.map_cons, matchItems] at h
      intro hp
      simp only [lowerStr, List.map_cons] at hp
      obtain ⟨hhead, htail⟩ := List.cons_prefix_cons.mp hp
      split at h
      · exact ih (Option.map_eq_none'.mp h) htail
      · rename_i hit
        exact hit (by simp only [itemMatches]; exact beq_iff_eq.mpr hhead)

theorem hlScan_nil (it : RItem) (its : List RItem) : hlScan it its [] = [] := by
  rw [hlScan]

theorem hlScan_cons_some {it : RItem} {its : List RItem} {c : Char} {rest m r : Str}
    (h : matchItems (it :: its) (c :: rest) = some (m, r)) :
    hlScan it its (c :: rest) = (true, m) :: hlScan it its r := by
  rw [hlScan]
  split
  · rename_i m2 r2 heq
    rw [h] at heq
    obtain ⟨h1, h2⟩ := Prod.mk.injEq .. ▸ Option.some.inj heq
    rw [h1, h2]
  · rename_i heq
    rw [h] at heq
    exact Option.noConfusion heq

theorem hlScan_cons_none {it : RItem} {its : List RItem} {c : Char} {rest : Str}
    (h : matchItems (it :: its) (c :: rest) = none) :
    hlScan it its (c :: rest) = (false, [c]) :: hlScan it its rest := by
  rw [hlScan]
  split
  · rename_i m2 r2 heq
    rw [h] at heq
    exact Option.noConfusion heq
  · rfl

theorem hlScan_join (it : RItem) (its : List RItem) (s : Str) :
    joinSegs (hlScan it its s) = s := by
  induction s using hlScan.induct it its with
  | case1 => rw [hlScan_nil]; rfl
  | case2 c rest m r hmatch ih =>
    rw [hlScan_cons_some hmatch]
    simp only [joinSegs, List.map_cons, List.flatten_cons] at ih ⊢
    rw [ih]
    exact (matchItems_eq hmatch).1.symm
  | case3 c rest hmatch ih =>
    rw [hlScan_cons_none hmatch]
    simp only [joinSegs, List.map_cons, List.flatten_cons] at ih ⊢
    rw [ih]
    rfl

theorem hlScan_marked {kw : Str} {it : RItem} {its : List RItem}
    (hP : it :: its = kw.map RItem.lit) (s : Str) :
    ∀ seg ∈ hlScan it its s, seg.1 = true → lowerStr seg.2 = lowerStr kw := by
  induction s using hlScan.induct it its with
  | case1 =>
    rw [hlScan_nil]
    intro seg hseg
    exact absurd hseg (List.not_mem_nil seg)
  | case2 c rest m r hmatch ih =>
    rw [hlScan_cons_some hmatch]
    intro seg hseg htrue
    rcases List.mem_cons.mp hseg with rfl | hmem
    · rw [hP] at hmatch
      exact matchItems_lit_some hmatch
    · exact ih seg hmem htrue
  | case3 c rest hmatch ih =>
    rw [hlScan_cons_none hmatch]
    intro seg hseg htrue
    rcases List.mem_cons.mp hseg with rfl | hmem
    · exact absurd htrue (by simp)
    · exact ih seg hmem htrue

theorem hlScan_unmarked {kw : Str} {it : RItem} {its : List RItem}
    (hP : it :: its = kw.map RItem.lit) (s : Str) :
    ∀ l seg r2, hlScan it its s = l ++ (false, seg) :: r2 →
      ¬ lowerStr kw <+: lowerStr (seg ++ joinSegs r2) := by
  induction s using hlScan.induct it its with
  | case1 =>
    rw [hlScan_nil]
    intro l seg r2 hEq
    exact absurd hEq.symm (List.append_ne_nil_of_right_ne_nil l (List.cons_ne_nil _ _))
  | case2 c rest m r hmatch ih =>
    rw [hlScan_cons_some hmatch]
    intro l seg r2 hEq
    cases l with
    | nil =>
      rw [List.nil_append] at hEq
      obtain ⟨h1, _⟩ := List.cons.injEq .. ▸ hEq
      exact absurd (congrArg Prod.fst h1) (by simp)
    | cons a l2 =>
      rw [List.cons_append] at hEq
      obtain ⟨_, h2⟩ := List.cons.injEq .. ▸ hEq
      exact ih l2 seg r2 h2
  | case3 c rest hmatch ih =>
    rw [hlScan_cons_none hmatch]
    intro l seg r2 hEq
    cases l with
    | nil =>
      rw [List.nil_append] at hEq
      obtain ⟨h1, h2⟩ := List.cons.injEq .. ▸ hEq
      have hseg : seg = [c] := (congrArg Prod.snd h1).symm
      have hr2 : r2 = hlScan it its rest := h2.symm
      rw [hseg, hr2, hlScan_join it its rest]
      rw [hP] at hmatch
      exact matchItems_lit_none hmatch
    | cons a l2 =>
      rw [List.cons_append] at hEq
      obtain ⟨_, h2⟩ := List.cons.injEq .. ▸ hEq
      exact ih l2 seg r2 h2

/-- **C4.** For every text and nonempty query, `highlight` rewrites the
text into the decomposition `highlightSegs`: the raw characters are
preserved, every marked segment is exactly a case-insensitive copy of
the literal query (so a query containing regex metacharacters such as
`a.b` highlights only literal occurrences — the escaping prevents
pattern interpretation), and no case-insensitive occurrence of the query
starts at an unmarked position (every occurrence the non-overlapping
left-to-right scan can see is wrapped). -/
theorem highlight_wraps_literal_occurrences (cls text keyword : Str) (hk : keyword ≠ []) :
    highlight cls text keyword = renderSegs cls (highlightSegs text keyword) ∧
      joinSegs (highlightSegs text keyword) = text ∧
      (∀ seg ∈ highlightSegs text keyword, seg.1 = true →
        lowerStr seg.2 = lowerStr keyword) ∧
      (∀ l seg r, highlightSegs text keyword = l ++ (false, seg) :: r →
        ¬ lowerStr keyword <+: lowerStr (seg ++ joinSegs r)) := by
  obtain ⟨k, ks, rfl⟩ : ∃ k ks, keyword = k :: ks := by
    cases keyword with
    | nil => exact absurd rfl hk
    | cons k ks => exact ⟨k, ks, rfl⟩
  have hP : parsePattern (escapeRegex (k :: ks)) = RItem.lit k :: ks.map RItem.lit := by
    rw [parsePattern_escape, List.map_cons]
  have hSegs : highlightSegs text (k :: ks) = hlScan (RItem.lit k) (ks.map RItem.lit) text := by
    rw [highlightSegs, hP]
  refine ⟨?_, ?_, ?_, ?_⟩
  · by_cases ht : text = []
    · subst ht
      rw [highlight, if_pos (Or.inl rfl), hSegs, hlScan_nil]
      rfl
    · rw [highlight, if_neg (by simp [ht]), hP, hSegs]
  · rw [hSegs]
    exact hlScan_join _ _ _
  · rw [hSegs]
    exact hlScan_marked (by rw [List.map_cons]) text
  · rw [hSegs]
    exact hlScan_unmarked (by rw [List.map_cons]) text

/-- Witness for C4 at a concrete text and metacharacter query. -/
theorem highlight_wraps_literal_occurrences_witness :
    ("a.b".data : Str) ≠ [] ∧
      joinSegs (highlightSegs "xa.bz axb".data "a.b".data) = "xa.bz axb".data :=
  ⟨by decide,
    (highlight_wraps_literal_occurrences "hl".data "xa.bz axb".data "a.b".data (by decide)).2.1⟩

/-- Concrete illustration: the metacharacter query `a.b` does not mark
the pattern-shaped text `axb` (the dot is escaped, not a wildcard). -/
theorem highlight_metachar_literal_demo :
    highlight "hl".data ['a', 'x', 'b'] ['a', '.', 'b'] = ['a', 'x', 'b'] := by
  rw [highlight, if_neg (by decide)]
  rw [show parsePattern (escapeRegex ['a', '.', 'b']) =
      [RItem.lit 'a', RItem.lit '.', RItem.lit 'b'] from by decide]
  show renderSegs "hl".data
    (hlScan (RItem.lit 'a') [RItem.lit '.', RItem.lit 'b'] ['a', 'x', 'b']) = _
  rw [hlScan_cons_none (by decide), hlScan_cons_none (by decide),
    hlScan_cons_none (by decide), hlScan_nil]
  rfl

/-! ### Widget session state machine

Models the mutable fields of the `SearchEngine` instance
(`searchData`, `isLoading`, `isOpen`), the UI pieces it drives (input
value, results container), and the debounce timer of `bindEvents`.  The
asynchronous `loadSearchData` is split into its synchronous prefix
(`loadStart`) and its continuation when the fetch settles
(`loadComplete`). -/

/-- Characters removed by `String.prototype.trim` (WhiteSpace and
LineTerminator code points). -/
def jsWhitespace : List Char :=
  [' ', '\t', '\n', '\r', Char.ofNat 0x0b, Char.ofNat 0x0c,
   Char.ofNat 0xa0, Char.ofNat 0x1680, Char.ofNat 0x2000, Char.ofNat 0x2001,
   Char.ofNat 0x2002, Char.ofNat 0x2003, Char.ofNat 0x2004, Char.ofNat 0x2005,
   Char.ofNat 0x2006, Char.ofNat 0x2007, Char.ofNat 0x2008, Char.ofNat 0x2009,
   Char.ofNat 0x200a, Char.ofNat 0x2028, Char.ofNat 0x2029, Char.ofNat 0x202f,
   Char.ofNat 0x205f, Char.ofNat 0x3000, Char.ofNat 0xfeff]

def isJsWhitespace (c : Char) : Bool := jsWhitespace.contains c

/-- Model of `keyword.trim()`. -/
def jsTrim (s : Str) : Str :=
  ((s.dropWhile isJsWhitespace).reverse.dropWhile isJsWhitespace).reverse

/-- The options the modelled behavior reads (constructor defaults:
`minChars = 2`, class `search-highlight`). -/
structure Config where
  minChars : Nat
  highlightClass : Str
deriving DecidableEq

def defaultConfig : Config :=
  { minChars := 2, highlightClass := "search-highlight".data }

/-- Contents of the results container `#search-results`, abstracting the
markup the source writes: `empty` after `.empty()`, `loading` for the
`.search-loading` indicator, `loadError` for the `.search-error`
message, `noResults` for the `.search-no-results` block, and `rendered`
for the result items (with the keyword used for highlighting). -/
inductive ResultsView
  | empty
  | loading
  | loadError
  | noResults
  | rendered (results : List ScoredResult) (keyword : Str)
deriving DecidableEq

/-- Model of `renderResults`: the empty list yields the no-results
block, otherwise the ranked items are written.  Note that the source
performs no open-state check here. -/
def renderResults (results : List ScoredResult) (keyword : Str) : ResultsView :=
  if results = [] then ResultsView.noResults else ResultsView.rendered results keyword

/-- The session state: the engine's mutable fields, the input's current
value, the results container, and whether a debounce timer is pending.
The timer callback reads `e.target.value` only when it fires, so the
pending timer carries no query text of its own. -/
structure EngineState where
  searchData : Option (List Document)
  isLoading : Bool
  isOpen : Bool
  inputValue : Str
  view : ResultsView
  timerPending : Bool
deriving DecidableEq

/-- The state right after construction: closed, nothing loaded. -/
def initialState : EngineState :=
  { searchData := none, isLoading := false, isOpen := false,
    inputValue := [], view := ResultsView.empty, timerPending := false }

/-- Outcome of one synchronous event-handler run: the next state,
whether a scoring pass ran (and its results), and whether a fetch of the
index was started. -/
structure SearchOutcome where
  state : EngineState
  ranSearch : Option (List ScoredResult)
  fetchStarted : Bool
deriving DecidableEq

/-- The synchronous prefix of `loadSearchData`: set the loading flag and
show the loading indicator; the fetch settles later (`loadComplete`). -/
def loadStart (st : EngineState) : EngineState :=
  { st with isLoading := true, view := ResultsView.loading }

/-- Model of `handleSearch(keyword)`: trim the raw value; below
`minChars` clear the results and stop; with no collection trigger the
load (unless one is in flight) and stop; otherwise run the scoring pass
and render. -/
def handleSearch (cfg : Config) (st : EngineState) (raw : Str) : SearchOutcome :=
  let keyword := jsTrim raw
  if keyword.length < cfg.minChars then
    { state := { st with view := ResultsView.empty }, ranSearch := none,
      fetchStarted := false }
  else
    match st.searchData with
    | none =>
      if st.isLoading then { state := st, ranSearch := none, fetchStarted := false }
      else { state := loadStart st, ranSearch := none, fetchStarted := true }
    | some data =>
      let results := search data keyword
      { state := { st with view := renderResults results keyword },
        ranSearch := some results, fetchStarted := false }

/-- Model of the `input` listener: the input now holds `s`; the previous
debounce timer is cleared and a new 200 ms one is scheduled. -/
def inputEvent (st : EngineState) (s : Str) : EngineState :=
  { st with inputValue := s, timerPending := true }

/-- The debounce timer fires: the callback reads the input's current
value and runs `handleSearch` on it. -/
def timerFire (cfg : Config) (st : EngineState) : SearchOutcome :=
  handleSearch cfg { st with timerPending := false } st.inputValue

/-- Model of `closeSearch`: close the widget, clear the input's value,
empty the results container.  Nothing else changes — in particular the
debounce timer is not cleared and the loaded collection is kept. -/
def closeSearch (st : EngineState) : EngineState :=
  { st with isOpen := false, inputValue := [], view := ResultsView.empty }

/-- Model of `openSearch`: open the widget and fetch the index unless it
is already loaded or a fetch is in flight; the boolean reports whether a
fetch was started. -/
def openSearch (st : EngineState) : EngineState × Bool :=
  let st2 := { st with isOpen := true }
  if st.searchData.isNone && !st.isLoading then (loadStart st2, true)
  else (st2, false)

/-- How the fetch awaited by `loadSearchData` can settle.  A successful
outcome carries the documents after `processSearchData` normalization
(normalization itself is DOM-dependent and outside the claims). -/
inductive FetchOutcome
  | ok (docs : List Document)
  | httpError
  | badJson
  | networkError
deriving DecidableEq

/-- A failing transport outcome: non-success status, invalid JSON body,
or network failure. -/
def FetchOutcome.failed : FetchOutcome → Bool
  | FetchOutcome.ok _ => false
  | _ => true

/-- The continuation of `loadSearchData` when the fetch settles.  On
success the collection is stored, the container emptied, and — when the
input currently holds a value of sufficient raw length — `handleSearch`
is replayed on it; on any failure the inline error message is rendered
and the collection is left absent.  The `finally` clause resets the
loading flag on every path. -/
def loadComplete (cfg : Config) (st : EngineState) (out : FetchOutcome) : SearchOutcome :=
  match out with
  | FetchOutcome.ok docs =>
    let st2 := { st with searchData := some docs, view := ResultsView.empty }
    if st2.inputValue ≠ [] ∧ cfg.minChars ≤ st2.inputValue.length then
      let o := handleSearch cfg st2 st2.inputValue
      { o with state := { o.state with isLoading := false } }
    else
      { state := { st2 with isLoading := false }, ranSearch := none, fetchStarted := false }
  | _ =>
    { state := { st with view := ResultsView.loadError, isLoading := false },
      ranSearch := none, fetchStarted := false }

/-! ### Claims about the session state machine -/

theorem dropWhile_all_append {p : Char → Bool} {ws l : Str}
    (h : ∀ c ∈ ws, p c = true) :
    List.dropWhile p (ws ++ l) = List.dropWhile p l := by
  induction ws with
  | nil => rfl
  | cons w ws ih =>
    rw [List.cons_append, List.dropWhile_cons, if_pos (h w (List.mem_cons_self w ws))]
    exact ih fun c hc => h c (List.mem_cons_of_mem w hc)

theorem jsTrim_surround {ws1 ws2 raw : Str}
    (h1 : ∀ c ∈ ws1, isJsWhitespace c = true)
    (h2 : ∀ c ∈ ws2, isJsWhitespace c = true) :
    jsTrim (ws1 ++ raw ++ ws2) = jsTrim raw := by
  rw [List.append_assoc]
  unfold jsTrim
  rw [dropWhile_all_append h1, List.dropWhile_append]
  split
  · rename_i hE
    rw [List.isEmpty_iff] at hE
    rw [List.dropWhile_eq_nil_iff.mpr h2, hE]
  · rw [List.reverse_append,
      dropWhile_all_append fun c hc => h2 c (List.mem_reverse.mp hc)]

theorem handleSearch_below_min (cfg : Config) (st : EngineState) (raw : Str)
    (h : (jsTrim raw).length < cfg.minChars) :
    handleSearch cfg st raw =
      { state := { st with view := ResultsView.empty }, ranSearch := none,
        fetchStarted := false } := by
  simp only [handleSearch]
  rw [if_pos h]

/-- **C6.** For every raw query whose trimmed length is below
`minChars`, `handleSearch` runs no scoring pass over the collection
(hence the search returns the empty sequence), clears any previously
rendered results, and starts no fetch. -/
theorem short_query_clears_results (cfg : Config) (st : EngineState) (raw : Str)
    (h : (jsTrim raw).length < cfg.minChars) :
    (handleSearch cfg st raw).ranSearch = none ∧
      (handleSearch cfg st raw).state.view = ResultsView.empty ∧
      (handleSearch cfg st raw).fetchStarted = false := by
  rw [handleSearch_below_min cfg st raw h]
  exact ⟨rfl, rfl, rfl⟩

/-- Witness for C6: a one-character query under the default
`minChars = 2`, in a state with rendered results. -/
theorem short_query_clears_results_witness :
    (jsTrim "r".data).length < defaultConfig.minChars ∧
      (handleSearch defaultConfig
          { initialState with
            searchData := some [sampleDoc],
            view := ResultsView.rendered [] [] } "r".data).ranSearch = none ∧
      (handleSearch defaultConfig
          { initialState with
            searchData := some [sampleDoc],
            view := ResultsView.rendered [] [] } "r".data).state.view =
        ResultsView.empty :=
  ⟨by decide,
    (short_query_clears_results defaultConfig _ _ (by decide)).1,
    (short_query_clears_results defaultConfig _ _ (by decide)).2.1⟩

/-- **C7.** When the load fails (non-success status, invalid JSON body,
or network failure), the failure is recovered locally: the inline error
message is rendered in the results container, no collection is stored,
the loading flag is reset, and a subsequent search attempt of sufficient
length re-issues the fetch. -/
theorem load_failure_recovery (cfg : Config) (st : EngineState) (out : FetchOutcome)
    (hfail : FetchOutcome.failed out = true) (hnodata : st.searchData = none)
    (raw : Str) (hlen : cfg.minChars ≤ (jsTrim raw).length) :
    (loadComplete cfg st out).state.view = ResultsView.loadError ∧
      (loadComplete cfg st out).state.searchData = none ∧
      (loadComplete cfg st out).state.isLoading = false ∧
      (handleSearch cfg (loadComplete cfg st out).state raw).fetchStarted = true := by
  have hstate : (loadComplete cfg st out).state =
      { st with view := ResultsView.loadError, isLoading := false } := by
    cases out with
    | ok docs => exact absurd hfail (by simp [FetchOutcome.failed])
    | httpError => rfl
    | badJson => rfl
    | networkError => rfl
  rw [hstate]
  refine ⟨rfl, hnodata, rfl, ?_⟩
  simp only [handleSearch]
  rw [if_neg (Nat.not_lt.mpr hlen)]
  simp only [hnodata]
  rfl

/-- Witness for C7: an HTTP 500 on the initial state, followed by the
query `rust`. -/
theorem load_failure_recovery_witness :
    FetchOutcome.failed FetchOutcome.httpError = true ∧
      (loadComplete defaultConfig initialState FetchOutcome.httpError).state.view =
        ResultsView.loadError ∧
      (handleSearch defaultConfig
          (loadComplete defaultConfig initialState FetchOutcome.httpError).state
          "rust".data).fetchStarted = true :=
  ⟨by decide,
    (load_failure_recovery defaultConfig initialState FetchOutcome.httpError
      (by decide) rfl "rust".data (by decide)).1,
    (load_failure_recovery defaultConfig initialState FetchOutcome.httpError
      (by decide) rfl "rust".data (by decide)).2.2.2⟩

/-- **C9.** `closeSearch` clears the query text and the rendered
results and closes the widget; every other part of the session state —
the loaded collection, the loading flag, the pending-timer flag — is
untouched, and reopening after a successful load starts no fetch. -/
theorem closeSearch_frame (st : EngineState) (docs : List Document)
    (hdata : st.searchData = some docs) :
    (closeSearch st).inputValue = [] ∧
      (closeSearch st).view = ResultsView.empty ∧
      (closeSearch st).isOpen = false ∧
      (closeSearch st).searchData = st.searchData ∧
      (closeSearch st).isLoading = st.isLoading ∧
      (closeSearch st).timerPending = st.timerPending ∧
      (openSearch (closeSearch st)).2 = false := by
    refine ⟨rfl, rfl, rfl, rfl, rfl, rfl, ?_⟩
    simp [openSearch, closeSearch, hdata]

/-- Witness for C9 on a loaded, open session. -/
theorem closeSearch_frame_witness :
    (closeSearch { initialState with
        searchData := some [sampleDoc],
        isOpen := true, inputValue := "rust".data }).searchData = some [sampleDoc] ∧
      (openSearch (closeSearch { initialState with
        searchData := some [sampleDoc],
        isOpen := true, inputValue := "rust".data })).2 = false := by
  have h := closeSearch_frame
    { initialState with
      searchData := some [sampleDoc], isOpen := true,
      inputValue := "rust".data } [sampleDoc] rfl
  exact ⟨h.2.2.2.1, h.2.2.2.2.2.2⟩

/-- **C8 counterexample.** Closing does not cancel the pending debounce
timer: after a keystroke (which schedules the timer) an immediate close
leaves the timer pending — `closeSearch` never touches it.  Moreover
rendering performs no open-state check: `handleSearch` on a closed
widget with a loaded collection still writes the result items into the
results container. -/
theorem close_cancels_timer_counterexample :
    (closeSearch (inputEvent initialState "ru".data)).timerPending = true ∧
      (handleSearch defaultConfig
        { initialState with searchData := some [sampleDoc] } "rust".data).state.isOpen =
        false ∧
      (handleSearch defaultConfig
        { initialState with searchData := some [sampleDoc] } "rust".data).state.view ≠
        ResultsView.empty := by
  refine ⟨rfl, rfl, ?_⟩
  decide

/-- **C8 (amended).** `closeSearch` leaves a pending debounce timer
pending and `renderResults` performs no open-state check; instead,
close clears the input value, so a debounce timer that fires after
close (with no intervening input) runs `handleSearch` on the empty
query, which clears the results and runs no search; likewise a load
that completes after close replays nothing and leaves the container
empty.  Hence no result is rendered into the closed widget (for any
`minChars ≥ 1`). -/
theorem stale_timer_after_close_is_harmless (cfg : Config) (st : EngineState)
    (docs : List Document) (hmin : 1 ≤ cfg.minChars) :
    (closeSearch st).timerPending = st.timerPending ∧
      (timerFire cfg (closeSearch st)).ranSearch = none ∧
      (timerFire cfg (closeSearch st)).state.view = ResultsView.empty ∧
      (timerFire cfg (closeSearch st)).state.isOpen = false ∧
      (loadComplete cfg (closeSearch st) (FetchOutcome.ok docs)).ranSearch = none ∧
      (loadComplete cfg (closeSearch st) (FetchOutcome.ok docs)).state.view =
        ResultsView.empty := by
  have hin : (closeSearch st).inputValue = [] := rfl
  have hlt : (jsTrim ((closeSearch st).inputValue)).length < cfg.minChars := by
    rw [hin]
    show (jsTrim []).length < cfg.minChars
    have : jsTrim ([] : Str) = [] := rfl
    rw [this]
    simpa using hmin
  have hfire : timerFire cfg (closeSearch st) =
      handleSearch cfg { closeSearch st with timerPending := false }
        (closeSearch st).inputValue := rfl
  rw [hfire, handleSearch_below_min _ _ _ hlt]
  refine ⟨rfl, rfl, rfl, rfl, ?_, ?_⟩ <;>
    simp [loadComplete, closeSearch]

/-- Witness for the amended C8 on a concrete open session with a
pending timer. -/
theorem stale_timer_after_close_is_harmless_witness :
    (timerFire defaultConfig (closeSearch { initialState with
      isOpen := true, inputValue := "ru".data, timerPending := true })).ranSearch = none ∧
      (timerFire defaultConfig (closeSearch { initialState with
        isOpen := true, inputValue := "ru".data, timerPending := true })).state.view =
        ResultsView.empty := by
  have h := stale_timer_after_close_is_harmless defaultConfig
    { initialState with
      isOpen := true, inputValue := "ru".data, timerPending := true }
    [sampleDoc] (by decide)
  exact ⟨h.2.1, h.2.2.1⟩

/-- **C10.** `handleSearch` operates on the whitespace-trimmed query:
surrounding whitespace never changes the outcome, and a raw query whose
trimmed length is below `minChars` yields the cleared empty outcome
even when its raw length meets `minChars`. -/
theorem handleSearch_trims_whitespace (cfg : Config) (st : EngineState)
    (raw ws1 ws2 : Str)
    (h1 : ∀ c ∈ ws1, isJsWhitespace c = true)
    (h2 : ∀ c ∈ ws2, isJsWhitespace c = true) :
    handleSearch cfg st (ws1 ++ raw ++ ws2) = handleSearch cfg st raw ∧
      ((jsTrim raw).length < cfg.minChars →
        (handleSearch cfg st (ws1 ++ raw ++ ws2)).ranSearch = none ∧
        (handleSearch cfg st (ws1 ++ raw ++ ws2)).state.view = ResultsView.empty) := by
  have hT : jsTrim (ws1 ++ raw ++ ws2) = jsTrim raw := jsTrim_surround h1 h2
  constructor
  · simp only [handleSearch, hT]
  · intro h
    have hlt : (jsTrim (ws1 ++ raw ++ ws2)).length < cfg.minChars := by
      rw [hT]
      exact h
    rw [handleSearch_below_min _ _ _ hlt]
    exact ⟨rfl, rfl⟩

/-- Witness for C10: `" r "` has raw length 3 ≥ `minChars` but trimmed
length 1, and behaves exactly like `"r"`. -/
theorem handleSearch_trims_whitespace_witness :
    handleSearch defaultConfig initialState (" ".data ++ "r".data ++ " ".data) =
      handleSearch defaultConfig initialState "r".data ∧
      (handleSearch defaultConfig initialState
        (" ".data ++ "r".data ++ " ".data)).ranSearch = none := by
  have h := handleSearch_trims_whitespace defaultConfig initialState
    "r".data " ".data " ".data (by decide) (by decide)
  exact ⟨h.1, (h.2 (by decide)).1⟩

end SearchSpec
